import Mathlib

/-!
A shallow embedding of the entropy-pool engine in
`src/Modified libraries/Crypto/src/RNG.cpp` (class `RNGClass`), together with
proofs about its credit accounting, stir/rekey/save protocol and state
invariants.

Modelling conventions:

* The 64-byte ChaCha input block `uint32_t block[16]` and the keystream
  buffer `uint32_t stream[16]` are modelled as byte maps `Fin 64 → Nat`
  (each entry a byte value); 32-bit word accesses of the source are
  expressed as little-endian accesses on four consecutive bytes, which is
  the AVR/ARM memory layout the source manipulates through
  `(uint8_t *)block`.
* The ChaCha permutation `ChaCha::hashCore` lives in `ChaCha.cpp`, which is
  not part of `src/`; the spec treats it as an external opaque primitive, so
  it is a parameter `hashCore` of every definition that uses it.
* `micros()` is modelled by a sample stream `micros : Nat → Nat`; the state
  field `ticks` is the index of the next sample.  Exactly one `micros()`
  sample is consumed per `rekey`, so `ticks` also counts rekeys.
* `millis()` values are passed in as explicit `now` arguments.
* `crypto_crc8` lives in `Crypto.cpp` (not in `src/`) and is a parameter.
* The declaration of the member fields is in `RNG.h`, which is not in
  `src/`; the field set is modelled from the spec data model (section 3)
  and the constructor/usage in `RNG.cpp`.  `credits` is modelled as a
  natural number with 16-bit unsigned arithmetic where the source performs
  arithmetic on it, matching the `(uint16_t)` casts in `RNG.cpp` and the
  spec range `[0, MAX_CREDITS]`.
* EEPROM, watchdog hardware and noise sources are external collaborators:
  EEPROM reads, the watchdog jitter accumulator contents and the current
  time enter as explicit inputs; EEPROM writes are external side effects
  with no feedback into the engine state and are dropped.
-/

set_option maxRecDepth 10000

/-- The 16-byte constant `tagRNG` ("expand 32-byte k") copied into the first
16 bytes of the block by `RNGClass::begin`. -/
def tagRNGBytes : List Nat :=
  [101, 120, 112, 97, 110, 100, 32, 51, 50, 45, 98, 121, 116, 101, 32, 107]

/-- The 48-byte initialization seed `initRNG` copied into bytes 16..63 of the
block by `RNGClass::begin`. -/
def initRNGBytes : List Nat :=
  [0xB0, 0x2A, 0xAE, 0x7D, 0xEE, 0xCB, 0xBB, 0xB1,
   0xFC, 0x03, 0x6F, 0xDD, 0xDC, 0x7D, 0x76, 0x67,
   0x0C, 0xE8, 0x1F, 0x0D, 0xA3, 0xA0, 0xAA, 0x1E,
   0xB0, 0xBD, 0x72, 0x6B, 0x2B, 0x4C, 0x8A, 0x7E,
   0x34, 0xFC, 0x37, 0x60, 0xF4, 0x1E, 0x22, 0xA0,
   0x0B, 0xFB, 0x18, 0x84, 0x60, 0xA5, 0x77, 0x72]

/-- Read 32-bit little-endian word `w` of the 64-byte block (`block[w]` in the
source). -/
def word32At (blk : Fin 64 → Nat) (w : Fin 16) : Nat :=
  blk ⟨4 * w.val, by have := w.isLt; omega⟩ +
    256 * blk ⟨4 * w.val + 1, by have := w.isLt; omega⟩ +
    65536 * blk ⟨4 * w.val + 2, by have := w.isLt; omega⟩ +
    16777216 * blk ⟨4 * w.val + 3, by have := w.isLt; omega⟩

/-- Store a 32-bit value into word `w` of the block as four little-endian
bytes (`block[w] = v`). -/
def setWord32At (blk : Fin 64 → Nat) (w : Nat) (v : Nat) : Fin 64 → Nat :=
  fun i => if (i : Nat) / 4 = w then v / 256 ^ ((i : Nat) % 4) % 256 else blk i

/-- XOR a 32-bit value into word `w` of the block byte by byte
(`block[w] ^= v`). -/
def xorWord32At (blk : Fin 64 → Nat) (w : Nat) (v : Nat) : Fin 64 → Nat :=
  fun i =>
    if (i : Nat) / 4 = w then Nat.xor (blk i) (v / 256 ^ ((i : Nat) % 4) % 256)
    else blk i

/-- Increment the low counter word of the block: `++(block[12])`. -/
def incCounter (blk : Fin 64 → Nat) : Fin 64 → Nat :=
  setWord32At blk 12 ((word32At blk 12 + 1) % 4294967296)

/-- XOR `chunk` (at most 48 bytes in every use) onto the block starting at
byte offset 16, i.e. onto `((uint8_t *)block) + 16`, as in the chunk loop of
`RNGClass::stir` and the saved-seed XOR in `RNGClass::begin`. -/
def xorChunkAt16 (blk : Fin 64 → Nat) (chunk : List Nat) : Fin 64 → Nat :=
  fun i =>
    if 16 ≤ (i : Nat) ∧ (i : Nat) < 16 + chunk.length then
      Nat.xor (blk i) (chunk.getD ((i : Nat) - 16) 0)
    else blk i

/-- The 64 bytes of a keystream buffer as a list, in order. -/
def streamBytes (str : Fin 64 → Nat) : List Nat :=
  (List.finRange 64).map str

/-- Final scattering steps of the Jenkins one-at-a-time hash applied to the
watchdog accumulator in `RNGClass::loop` and `RNGClass::mixTRNG`
(`value += value << 3; value ^= value >> 11; value += value << 15;`,
32-bit arithmetic). -/
def jenkinsFinal (value : Nat) : Nat :=
  let v1 := (value + value * 8 % 4294967296) % 4294967296
  let v2 := Nat.xor v1 (v1 / 2048)
  (v2 + v2 * 32768 % 4294967296) % 4294967296

/-- State of `RNGClass`.  `RNG.h` is not part of `src/`; the fields are
modelled from the spec data model and the constructor in `RNG.cpp`.
`ticks` is the index of the next `micros()` sample and is incremented
exactly once per `rekey`, so it doubles as a rekey counter.  The noise
source registry is not modelled: registered sources are external
collaborators whose callbacks appear as separate `stir` events. -/
structure RNGState where
  block : Fin 64 → Nat
  stream : Fin 64 → Nat
  credits : Nat
  firstSave : Bool
  initialized : Bool
  trngPending : Bool
  timer : Nat
  timeout : Nat
  trngPosn : Nat
  ticks : Nat

/-- The freshly constructed engine (`RNGClass::RNGClass()`); `block` and
`stream` are zero because the global instance has static storage. -/
def initState : RNGState where
  block := fun _ => 0
  stream := fun _ => 0
  credits := 0
  firstSave := true
  initialized := false
  trngPending := false
  timer := 0
  timeout := 3600000
  trngPosn := 0
  ticks := 0

variable (hashCore : (Fin 64 → Nat) → Fin 64 → Nat) (micros : Nat → Nat)
variable (crc8 : Nat → List Nat → Nat) (devId : List Nat)

/-- `RNGClass::rekey`: increment the counter word, run the permutation over
the whole block, copy the 48 output bytes over bytes 16..63, and XOR a
`micros()` sample into word 13. -/
def rekey (s : RNGState) : RNGState :=
  let blk1 := incCounter s.block
  let str := hashCore blk1
  let blk2 : Fin 64 → Nat := fun i =>
    if (i : Nat) < 16 then blk1 i
    else str ⟨(i : Nat) - 16, by have := i.isLt; omega⟩
  let blk3 := xorWord32At blk2 13 (micros s.ticks % 4294967296)
  { s with block := blk3, stream := str, ticks := s.ticks + 1 }

/-- `RNGClass::mixTRNG` for the watchdog platform of this repository:
if at least 32 bits have accumulated, scatter the accumulator with the
Jenkins finalization and XOR it into word 4 of the block.  The accumulator
contents `(hashAcc, outBits)` are inputs from the interrupt context. -/
def mixTRNG (hashAcc outBits : Nat) (s : RNGState) : RNGState :=
  if 32 ≤ outBits then
    { s with block := xorWord32At s.block 4 (jenkinsFinal (hashAcc % 4294967296)) }
  else s

/-- `RNGClass::save`: generate one keystream block from the current state
(incrementing the counter), hand it to the seed store (an external side
effect, dropped here), rekey, and record the save time. -/
def save (now : Nat) (s : RNGState) : RNGState :=
  let blk := incCounter s.block
  let str := hashCore blk
  let s2 := rekey hashCore micros { s with block := blk, stream := str }
  { s2 with timer := now % 4294967296 }

/-- The chunk loop of `RNGClass::stir`: consume the input in order in chunks
of at most 48 bytes, XORing each chunk onto bytes 16..63 of the block and
rekeying after each chunk. -/
def stirChunks (data : List Nat) (s : RNGState) : RNGState :=
  if h : data = [] then s
  else
    stirChunks (data.drop 48)
      (rekey hashCore micros { s with block := xorChunkAt16 s.block (data.take 48) })
termination_by data.length
decreasing_by
  simp only [List.length_drop]
  have : data.length ≠ 0 := fun hh => h (List.length_eq_zero.mp hh)
  omega

/-- Credit increase at the top of `RNGClass::stir`: clamp the caller's
credit to `len * 8` when `len` is nonzero and `credit / 8 >= len`, then add
it, saturating at `RNG_MAX_CREDITS = 384`
(`if ((credit / 8) >= len && len) credit = len * 8; if ((uint16_t)(RNG_MAX_CREDITS - credits) > credit) credits += credit; else credits = RNG_MAX_CREDITS;`). -/
def stirCredits (credits len credit : Nat) : Nat :=
  let credit1 := if credit / 8 ≥ len ∧ len ≠ 0 then len * 8 else credit
  if 384 - credits > credit1 then credits + credit1 else 384

/-- `RNGClass::stir(data, len, credit)` with `len = data.length`.  `now`
feeds the `millis()` call inside the automatic save that fires the first
time the pool reaches maximum credit. -/
def stir (data : List Nat) (credit : Nat) (now : Nat) (s : RNGState) : RNGState :=
  let s1 := { s with credits := stirCredits s.credits data.length credit }
  let s2 :=
    if 0 < data.length then stirChunks hashCore micros data s1
    else rekey hashCore micros s1
  if s2.firstSave = true ∧ s2.credits ≥ 384 then
    save hashCore micros now { s2 with firstSave := false }
  else s2

/-- Credit decrement at the top of `RNGClass::rand`
(`if ((uint16_t)len > (credits / 8)) credits = 0; else credits -= len * 8;`).
The cast truncates `len` to 16 bits and the subtraction is 16-bit unsigned
arithmetic. -/
def randCredits (credits len : Nat) : Nat :=
  if len % 65536 > credits / 8 then 0
  else (((credits : Int) - (len : Int) * 8) % 65536).toNat

/-- The block-generation loop of `RNGClass::rand`: while bytes remain, force
a rekey once 16 blocks have been generated since the last one, increment the
counter word, generate a keystream block, and copy out 64 bytes (or the
truncated final chunk).  Returns the final state and the produced bytes. -/
def randLoop (cnt len : Nat) (s : RNGState) : RNGState × List Nat :=
  if h : len = 0 then (s, [])
  else
    let p := if 16 ≤ cnt then (1, rekey hashCore micros s) else (cnt + 1, s)
    let blk := incCounter p.2.block
    let str := hashCore blk
    let s2 := { p.2 with block := blk, stream := str }
    if len < 64 then (s2, (streamBytes str).take len)
    else
      let r := randLoop p.1 (len - 64) s2
      (r.1, streamBytes str ++ r.2)
termination_by len
decreasing_by omega

/-- The part of `RNGClass::rand` between the initialization check and the
block-generation loop: decrease the credit, then either force a zero-length
stir (pending TRNG data) or mix fresh TRNG data. -/
def randPre (hashAcc outBits now len : Nat) (s : RNGState) : RNGState :=
  let s1 := { s with credits := randCredits s.credits len }
  if s1.trngPending = true then
    let st := stir hashCore micros [] 0 now s1
    { st with trngPending := false, trngPosn := 0 }
  else mixTRNG hashAcc outBits s1

/-- `RNGClass::rand` after the initialization check: credit accounting and
TRNG handling, the generation loop, and the unconditional final rekey. -/
def randBody (hashAcc outBits now len : Nat) (s : RNGState) : RNGState × List Nat :=
  let r := randLoop hashCore micros 0 len (randPre hashCore micros hashAcc outBits now len s)
  (rekey hashCore micros r.1, r.2)

/-- `RNGClass::begin(tag)` for the AVR/EEPROM platform of this repository.
`eep` is the `SEED_SIZE = 48` bytes read from EEPROM (read into `stream`),
accepted only if its CRC-8 over the first 47 bytes matches its last byte;
`devId` is the compile-time `__TIME__ __DATE__` string stirred in as a
device/application decorrelator. -/
def begin (tag : Option (List Nat)) (eep : List Nat) (now : Nat) (s : RNGState) :
    RNGState :=
  if s.initialized = true then s
  else
    let blk0 : Fin 64 → Nat := fun i =>
      if (i : Nat) < 16 then tagRNGBytes.getD (i : Nat) 0
      else initRNGBytes.getD ((i : Nat) - 16) 0
    let str1 : Fin 64 → Nat := fun i =>
      if (i : Nat) < 48 then eep.getD (i : Nat) 0 else s.stream i
    let blk1 :=
      if crc8 83 (eep.take 47) = eep.getD 47 0 then xorChunkAt16 blk0 (eep.take 48)
      else blk0
    let s1 := { s with block := blk1, stream := str1, credits := 0, firstSave := true }
    let s2 := rekey hashCore micros s1
    let s3 :=
      match tag with
      | some t => stir hashCore micros t 0 now s2
      | none => s2
    let s4 := stir hashCore micros devId 0 now s3
    let s5 := save hashCore micros now s4
    { s5 with initialized := true }

/-- `RNGClass::rand(data, len)`: self-heal by calling `begin` with no tag if
the engine is not initialized, then run the body.  Returns the final state
and the `len` bytes written to the caller's buffer. -/
def rand (hashAcc outBits now : Nat) (eep : List Nat) (len : Nat) (s : RNGState) :
    RNGState × List Nat :=
  randBody hashCore micros hashAcc outBits now len
    (if s.initialized = true then s else begin hashCore micros crc8 devId none eep now s)

/-- `RNGClass::available(len)`: a const query on the credit counter. -/
def available (s : RNGState) (len : Nat) : Bool :=
  if 384 / 8 ≤ len then decide (384 ≤ s.credits)
  else decide (len % 65536 ≤ s.credits / 8)

/-- `RNGClass::setAutoSaveTime(minutes)`: `minutes` is a `uint16_t`, a zero
argument is replaced by one, and the timeout is `minutes * 60000` in 32-bit
arithmetic. -/
def setAutoSaveTime (minutes : Nat) (s : RNGState) : RNGState :=
  let m := minutes % 65536
  let m := if m = 0 then 1 else m
  { s with timeout := m * 60000 % 4294967296 }

/-- `RNGClass::loop` for the watchdog platform of this repository, minus the
noise-source dispatch (registered sources are external collaborators whose
callbacks appear as separate `stir` events).  `(hashAcc, outBits)` are the
watchdog jitter accumulator contents, `now` is `millis()`. -/
def loop (hashAcc outBits now : Nat) (s : RNGState) : RNGState :=
  let s1 :=
    if 32 ≤ outBits then
      let value := jenkinsFinal (hashAcc % 4294967296)
      let c := s.credits + 4
      let c := if c > 384 then 384 else c
      let s' := { s with credits := c, block := xorWord32At s.block (4 + s.trngPosn) value }
      if 12 ≤ s.trngPosn + 1 then
        stir hashCore micros [] 0 now { s' with trngPosn := 0, trngPending := false }
      else { s' with trngPosn := s.trngPosn + 1, trngPending := true }
    else s
  if s1.timeout ≤ (now + 4294967296 - s1.timer) % 4294967296 then
    save hashCore micros now s1
  else s1

/-- `RNGClass::destroy`: zero the block and the keystream buffer, erase the
persisted seed (external side effect, dropped), and mark the engine not
initialized.  The credit counter is not reset by the source. -/
def destroy (s : RNGState) : RNGState :=
  { s with block := fun _ => 0, stream := fun _ => 0, initialized := false }

/-- Events of the public engine surface, each carrying the external inputs
(EEPROM contents, accumulator contents, clock readings) its call consumes. -/
inductive Ev where
  | beginE (tag : Option (List Nat)) (eep : List Nat) (now : Nat)
  | stirE (data : List Nat) (credit : Nat) (now : Nat)
  | randE (hashAcc outBits now : Nat) (eep : List Nat) (len : Nat)
  | saveE (now : Nat)
  | loopE (hashAcc outBits now : Nat)
  | setTimeE (minutes : Nat)
  | destroyE

/-- One step of the engine: dispatch an event to the corresponding member
function. -/
def step (e : Ev) (s : RNGState) : RNGState :=
  match e with
  | .beginE tag eep now => begin hashCore micros crc8 devId tag eep now s
  | .stirE data credit now => stir hashCore micros data credit now s
  | .randE hA oB now eep len => (rand hashCore micros crc8 devId hA oB now eep len s).1
  | .saveE now => save hashCore micros now s
  | .loopE hA oB now => loop hashCore micros hA oB now s
  | .setTimeE m => setAutoSaveTime m s
  | .destroyE => destroy s

/-- Run a sequence of events from a state. -/
def run (evs : List Ev) (s : RNGState) : RNGState :=
  evs.foldl (fun st e => step hashCore micros crc8 devId e st) s

/-! ### Basic facts about the block primitives -/

theorem setWord32At_lo (blk : Fin 64 → Nat) (w v : Nat) (hw : 4 ≤ w) (i : Fin 64)
    (hi : (i : Nat) < 16) : setWord32At blk w v i = blk i := by
  simp only [setWord32At]
  rw [if_neg (by omega)]

theorem xorWord32At_lo (blk : Fin 64 → Nat) (w v : Nat) (hw : 4 ≤ w) (i : Fin 64)
    (hi : (i : Nat) < 16) : xorWord32At blk w v i = blk i := by
  simp only [xorWord32At]
  rw [if_neg (by omega)]

theorem xorChunkAt16_lo (blk : Fin 64 → Nat) (chunk : List Nat) (i : Fin 64)
    (hi : (i : Nat) < 16) : xorChunkAt16 blk chunk i = blk i := by
  simp only [xorChunkAt16]
  rw [if_neg (by omega)]

theorem incCounter_lo (blk : Fin 64 → Nat) (i : Fin 64) (hi : (i : Nat) < 16) :
    incCounter blk i = blk i :=
  setWord32At_lo blk 12 _ (by omega) i hi

/-! ### Field effects of rekey, save, mixTRNG -/

theorem rekey_credits (s : RNGState) : (rekey hashCore micros s).credits = s.credits := rfl

theorem rekey_firstSave (s : RNGState) :
    (rekey hashCore micros s).firstSave = s.firstSave := rfl

theorem rekey_initialized (s : RNGState) :
    (rekey hashCore micros s).initialized = s.initialized := rfl

theorem rekey_trngPending (s : RNGState) :
    (rekey hashCore micros s).trngPending = s.trngPending := rfl

theorem rekey_trngPosn (s : RNGState) :
    (rekey hashCore micros s).trngPosn = s.trngPosn := rfl

theorem rekey_timer (s : RNGState) : (rekey hashCore micros s).timer = s.timer := rfl

theorem rekey_timeout (s : RNGState) : (rekey hashCore micros s).timeout = s.timeout := rfl

theorem rekey_ticks (s : RNGState) : (rekey hashCore micros s).ticks = s.ticks + 1 := rfl

theorem rekey_block_lo (s : RNGState) (i : Fin 64) (hi : (i : Nat) < 16) :
    (rekey hashCore micros s).block i = s.block i := by
  simp only [rekey]
  rw [xorWord32At_lo _ _ _ (by omega) i hi]
  rw [if_pos hi]
  exact incCounter_lo s.block i hi

theorem save_credits (now : Nat) (s : RNGState) :
    (save hashCore micros now s).credits = s.credits := rfl

theorem save_firstSave (now : Nat) (s : RNGState) :
    (save hashCore micros now s).firstSave = s.firstSave := rfl

theorem save_initialized (now : Nat) (s : RNGState) :
    (save hashCore micros now s).initialized = s.initialized := rfl

theorem save_trngPending (now : Nat) (s : RNGState) :
    (save hashCore micros now s).trngPending = s.trngPending := rfl

theorem save_trngPosn (now : Nat) (s : RNGState) :
    (save hashCore micros now s).trngPosn = s.trngPosn := rfl

theorem save_timeout (now : Nat) (s : RNGState) :
    (save hashCore micros now s).timeout = s.timeout := rfl

theorem save_ticks (now : Nat) (s : RNGState) :
    (save hashCore micros now s).ticks = s.ticks + 1 := rfl

theorem save_block_lo (now : Nat) (s : RNGState) (i : Fin 64) (hi : (i : Nat) < 16) :
    (save hashCore micros now s).block i = s.block i := by
  simp only [save]
  rw [rekey_block_lo hashCore micros _ i hi]
  exact incCounter_lo s.block i hi

theorem mixTRNG_credits (hA oB : Nat) (s : RNGState) :
    (mixTRNG hA oB s).credits = s.credits := by
  simp only [mixTRNG]; split <;> rfl

theorem mixTRNG_firstSave (hA oB : Nat) (s : RNGState) :
    (mixTRNG hA oB s).firstSave = s.firstSave := by
  simp only [mixTRNG]; split <;> rfl

theorem mixTRNG_initialized (hA oB : Nat) (s : RNGState) :
    (mixTRNG hA oB s).initialized = s.initialized := by
  simp only [mixTRNG]; split <;> rfl

theorem mixTRNG_trngPending (hA oB : Nat) (s : RNGState) :
    (mixTRNG hA oB s).trngPending = s.trngPending := by
  simp only [mixTRNG]; split <;> rfl

theorem mixTRNG_trngPosn (hA oB : Nat) (s : RNGState) :
    (mixTRNG hA oB s).trngPosn = s.trngPosn := by
  simp only [mixTRNG]; split <;> rfl

theorem mixTRNG_ticks (hA oB : Nat) (s : RNGState) :
    (mixTRNG hA oB s).ticks = s.ticks := by
  simp only [mixTRNG]; split <;> rfl

theorem mixTRNG_block_lo (hA oB : Nat) (s : RNGState) (i : Fin 64) (hi : (i : Nat) < 16) :
    (mixTRNG hA oB s).block i = s.block i := by
  simp only [mixTRNG]
  split
  · exact xorWord32At_lo _ _ _ (by omega) i hi
  · rfl

/-! ### The chunk loop of stir -/

theorem stirChunks_spec : ∀ n data (s : RNGState), data.length ≤ n →
    (stirChunks hashCore micros data s).credits = s.credits ∧
    (stirChunks hashCore micros data s).firstSave = s.firstSave ∧
    (stirChunks hashCore micros data s).initialized = s.initialized ∧
    (stirChunks hashCore micros data s).trngPending = s.trngPending ∧
    (stirChunks hashCore micros data s).trngPosn = s.trngPosn ∧
    (stirChunks hashCore micros data s).timer = s.timer ∧
    (stirChunks hashCore micros data s).timeout = s.timeout ∧
    (stirChunks hashCore micros data s).ticks = s.ticks + (data.length + 47) / 48 ∧
    (∀ i : Fin 64, (i : Nat) < 16 →
      (stirChunks hashCore micros data s).block i = s.block i) := by
  intro n
  induction n with
  | zero =>
    intro data s h
    have hd : data = [] := List.length_eq_zero.mp (Nat.le_zero.mp h)
    subst hd
    rw [stirChunks]
    simp
  | succ n ih =>
    intro data s h
    rw [stirChunks]
    split
    · simp_all
    · rename_i hne
      have hlen : data.length ≠ 0 := fun hh => hne (List.length_eq_zero.mp hh)
      have hrec := ih (data.drop 48)
        (rekey hashCore micros { s with block := xorChunkAt16 s.block (data.take 48) })
        (by simp only [List.length_drop]; omega)
      obtain ⟨h1, h2, h3, h4, h5, h6, h7, h8, h9⟩ := hrec
      refine ⟨?_, ?_, ?_, ?_, ?_, ?_, ?_, ?_, ?_⟩
      · rw [h1]; rfl
      · rw [h2]; rfl
      · rw [h3]; rfl
      · rw [h4]; rfl
      · rw [h5]; rfl
      · rw [h6]; rfl
      · rw [h7]; rfl
      · rw [h8, rekey_ticks]
        simp only [List.length_drop]
        omega
      · intro i hi
        rw [h9 i hi, rekey_block_lo hashCore micros _ i hi]
        exact xorChunkAt16_lo s.block _ i hi

theorem stirChunks_credits (data : List Nat) (s : RNGState) :
    (stirChunks hashCore micros data s).credits = s.credits :=
  (stirChunks_spec hashCore micros data.length data s le_rfl).1

theorem stirChunks_firstSave (data : List Nat) (s : RNGState) :
    (stirChunks hashCore micros data s).firstSave = s.firstSave :=
  (stirChunks_spec hashCore micros data.length data s le_rfl).2.1

theorem stirChunks_initialized (data : List Nat) (s : RNGState) :
    (stirChunks hashCore micros data s).initialized = s.initialized :=
  (stirChunks_spec hashCore micros data.length data s le_rfl).2.2.1

theorem stirChunks_trngPending (data : List Nat) (s : RNGState) :
    (stirChunks hashCore micros data s).trngPending = s.trngPending :=
  (stirChunks_spec hashCore micros data.length data s le_rfl).2.2.2.1

theorem stirChunks_trngPosn (data : List Nat) (s : RNGState) :
    (stirChunks hashCore micros data s).trngPosn = s.trngPosn :=
  (stirChunks_spec hashCore micros data.length data s le_rfl).2.2.2.2.1

theorem stirChunks_ticks (data : List Nat) (s : RNGState) :
    (stirChunks hashCore micros data s).ticks = s.ticks + (data.length + 47) / 48 :=
  (stirChunks_spec hashCore micros data.length data s le_rfl).2.2.2.2.2.2.2.1

theorem stirChunks_block_lo (data : List Nat) (s : RNGState) (i : Fin 64)
    (hi : (i : Nat) < 16) :
    (stirChunks hashCore micros data s).block i = s.block i :=
  (stirChunks_spec hashCore micros data.length data s le_rfl).2.2.2.2.2.2.2.2 i hi

/-! ### Field effects of stir -/

theorem stirCredits_le (credits len credit : Nat) : stirCredits credits len credit ≤ 384 := by
  simp only [stirCredits]
  split <;> split <;> omega

theorem stirAfter_credits (now : Nat) (s2 : RNGState) :
    (if s2.firstSave = true ∧ s2.credits ≥ 384 then
        save hashCore micros now { s2 with firstSave := false }
      else s2).credits = s2.credits := by
  split
  · rw [save_credits]
  · rfl

theorem stirAfter_initialized (now : Nat) (s2 : RNGState) :
    (if s2.firstSave = true ∧ s2.credits ≥ 384 then
        save hashCore micros now { s2 with firstSave := false }
      else s2).initialized = s2.initialized := by
  split
  · rw [save_initialized]
  · rfl

theorem stirAfter_trngPending (now : Nat) (s2 : RNGState) :
    (if s2.firstSave = true ∧ s2.credits ≥ 384 then
        save hashCore micros now { s2 with firstSave := false }
      else s2).trngPending = s2.trngPending := by
  split
  · rw [save_trngPending]
  · rfl

theorem stirAfter_trngPosn (now : Nat) (s2 : RNGState) :
    (if s2.firstSave = true ∧ s2.credits ≥ 384 then
        save hashCore micros now { s2 with firstSave := false }
      else s2).trngPosn = s2.trngPosn := by
  split
  · rw [save_trngPosn]
  · rfl

theorem stirAfter_block_lo (now : Nat) (s2 : RNGState) (i : Fin 64) (hi : (i : Nat) < 16) :
    (if s2.firstSave = true ∧ s2.credits ≥ 384 then
        save hashCore micros now { s2 with firstSave := false }
      else s2).block i = s2.block i := by
  split
  · rw [save_block_lo hashCore micros _ _ i hi]
  · rfl

theorem stir_credits (data : List Nat) (credit now : Nat) (s : RNGState) :
    (stir hashCore micros data credit now s).credits =
      stirCredits s.credits data.length credit := by
  simp only [stir]
  rw [stirAfter_credits]
  split
  · rw [stirChunks_credits]
  · rw [rekey_credits]

theorem stir_credits_le (data : List Nat) (credit now : Nat) (s : RNGState) :
    (stir hashCore micros data credit now s).credits ≤ 384 := by
  rw [stir_credits]
  exact stirCredits_le s.credits data.length credit

theorem stir_initialized (data : List Nat) (credit now : Nat) (s : RNGState) :
    (stir hashCore micros data credit now s).initialized = s.initialized := by
  simp only [stir]
  rw [stirAfter_initialized]
  split
  · rw [stirChunks_initialized]
  · rw [rekey_initialized]

theorem stir_trngPending (data : List Nat) (credit now : Nat) (s : RNGState) :
    (stir hashCore micros data credit now s).trngPending = s.trngPending := by
  simp only [stir]
  rw [stirAfter_trngPending]
  split
  · rw [stirChunks_trngPending]
  · rw [rekey_trngPending]

theorem stir_trngPosn (data : List Nat) (credit now : Nat) (s : RNGState) :
    (stir hashCore micros data credit now s).trngPosn = s.trngPosn := by
  simp only [stir]
  rw [stirAfter_trngPosn]
  split
  · rw [stirChunks_trngPosn]
  · rw [rekey_trngPosn]

theorem stir_block_lo (data : List Nat) (credit now : Nat) (s : RNGState) (i : Fin 64)
    (hi : (i : Nat) < 16) :
    (stir hashCore micros data credit now s).block i = s.block i := by
  simp only [stir]
  rw [stirAfter_block_lo hashCore micros now _ i hi]
  split
  · rw [stirChunks_block_lo hashCore micros _ _ i hi]
  · rw [rekey_block_lo hashCore micros _ i hi]

/-! ### Credit decrement and generation loop of rand -/

theorem randCredits_eq (credits len : Nat) (h : credits ≤ 384) :
    randCredits credits len =
      if credits / 8 < len % 65536 then 0 else credits - len % 65536 * 8 := by
  simp only [randCredits]
  split
  · rfl
  · rename_i hle
    have key : ((credits : Int) - len * 8) =
        ((credits : Int) - ((len % 65536 : Nat) : Int) * 8) +
          65536 * (-(8 * ((len / 65536 : Nat) : Int))) := by
      have hsplit : (len : Int) =
          ((len % 65536 : Nat) : Int) + 65536 * ((len / 65536 : Nat) : Int) := by
        push_cast
        omega
      rw [hsplit]
      ring
    rw [key, Int.add_mul_emod_self_left]
    have hb : (0 : Int) ≤ (credits : Int) - ((len % 65536 : Nat) : Int) * 8 := by
      push_cast
      omega
    have hlt : (credits : Int) - ((len % 65536 : Nat) : Int) * 8 < 65536 := by
      push_cast
      omega
    rw [Int.emod_eq_of_lt hb hlt]
    push_cast
    omega

theorem randCredits_le (credits len : Nat) (h : credits ≤ 384) :
    randCredits credits len ≤ 384 := by
  rw [randCredits_eq credits len h]
  split <;> omega

theorem randLoop_spec : ∀ len cnt (s : RNGState),
    ((randLoop hashCore micros cnt len s).1).credits = s.credits ∧
    ((randLoop hashCore micros cnt len s).1).firstSave = s.firstSave ∧
    ((randLoop hashCore micros cnt len s).1).initialized = s.initialized ∧
    ((randLoop hashCore micros cnt len s).1).trngPending = s.trngPending ∧
    ((randLoop hashCore micros cnt len s).1).trngPosn = s.trngPosn ∧
    ((randLoop hashCore micros cnt len s).1).timer = s.timer ∧
    ((randLoop hashCore micros cnt len s).1).timeout = s.timeout ∧
    ((randLoop hashCore micros cnt len s).2).length = len ∧
    (∀ i : Fin 64, (i : Nat) < 16 →
      ((randLoop hashCore micros cnt len s).1).block i = s.block i) := by
  intro len
  induction len using Nat.strong_induction_on with
  | _ len ih =>
    intro cnt s
    rw [randLoop]
    by_cases h0 : len = 0
    · subst h0
      simp
    · rw [dif_neg h0]
      by_cases hc : 16 ≤ cnt
      · by_cases h64 : len < 64
        · simp only [hc, h64, ite_true, ite_false, if_true, if_false]
          refine ⟨rekey_credits hashCore micros s, rekey_firstSave hashCore micros s,
            rekey_initialized hashCore micros s, rekey_trngPending hashCore micros s,
            rekey_trngPosn hashCore micros s, rekey_timer hashCore micros s,
            rekey_timeout hashCore micros s, ?_, ?_⟩
          · simp only [List.length_take, streamBytes, List.length_map, List.length_finRange]
            omega
          · intro i hi
            show incCounter (rekey hashCore micros s).block i = s.block i
            rw [incCounter_lo _ i hi]
            exact rekey_block_lo hashCore micros s i hi
        · simp only [hc, h64, ite_true, ite_false, if_true, if_false]
          have H := ih (len - 64) (by omega) 1
          refine ⟨(H _).1.trans rfl, (H _).2.1.trans rfl, (H _).2.2.1.trans rfl,
            (H _).2.2.2.1.trans rfl, (H _).2.2.2.2.1.trans rfl,
            (H _).2.2.2.2.2.1.trans rfl, (H _).2.2.2.2.2.2.1.trans rfl, ?_, ?_⟩
          · rw [List.length_append, (H _).2.2.2.2.2.2.2.1]
            simp only [streamBytes, List.length_map, List.length_finRange]
            omega
          · intro i hi
            rw [(H _).2.2.2.2.2.2.2.2 i hi]
            show incCounter (rekey hashCore micros s).block i = s.block i
            rw [incCounter_lo _ i hi]
            exact rekey_block_lo hashCore micros s i hi
      · by_cases h64 : len < 64
        · simp only [hc, h64, ite_true, ite_false, if_true, if_false]
          refine ⟨trivial, trivial, trivial, trivial, trivial, trivial, trivial, ?_, ?_⟩
          · simp only [List.length_take, streamBytes, List.length_map, List.length_finRange]
            omega
          · intro i hi
            exact incCounter_lo _ i hi
        · simp only [hc, h64, ite_true, ite_false, if_true, if_false]
          have H := ih (len - 64) (by omega) (cnt + 1)
          refine ⟨(H _).1.trans rfl, (H _).2.1.trans rfl, (H _).2.2.1.trans rfl,
            (H _).2.2.2.1.trans rfl, (H _).2.2.2.2.1.trans rfl,
            (H _).2.2.2.2.2.1.trans rfl, (H _).2.2.2.2.2.2.1.trans rfl, ?_, ?_⟩
          · rw [List.length_append, (H _).2.2.2.2.2.2.2.1]
            simp only [streamBytes, List.length_map, List.length_finRange]
            omega
          · intro i hi
            rw [(H _).2.2.2.2.2.2.2.2 i hi]
            exact incCounter_lo _ i hi

/-! ### Field effects of randPre, randBody, rand -/

theorem randPre_credits (hA oB now len : Nat) (s : RNGState) (h : s.credits ≤ 384) :
    (randPre hashCore micros hA oB now len s).credits = randCredits s.credits len := by
  have hle : randCredits s.credits len ≤ 384 := randCredits_le s.credits len h
  simp only [randPre]
  split
  · show (stir hashCore micros [] 0 now _).credits = _
    rw [stir_credits]
    simp only [stirCredits, List.length_nil]
    split <;> split <;> omega
  · rw [mixTRNG_credits]

theorem randPre_initialized (hA oB now len : Nat) (s : RNGState) :
    (randPre hashCore micros hA oB now len s).initialized = s.initialized := by
  simp only [randPre]
  split
  · show (stir hashCore micros [] 0 now _).initialized = _
    rw [stir_initialized]
  · rw [mixTRNG_initialized]

theorem randPre_block_lo (hA oB now len : Nat) (s : RNGState) (i : Fin 64)
    (hi : (i : Nat) < 16) :
    (randPre hashCore micros hA oB now len s).block i = s.block i := by
  simp only [randPre]
  split
  · show (stir hashCore micros [] 0 now _).block i = _
    rw [stir_block_lo hashCore micros _ _ _ _ i hi]
  · rw [mixTRNG_block_lo _ _ _ i hi]

theorem randBody_credits (hA oB now len : Nat) (s : RNGState) (h : s.credits ≤ 384) :
    ((randBody hashCore micros hA oB now len s).1).credits = randCredits s.credits len := by
  simp only [randBody]
  rw [rekey_credits, (randLoop_spec hashCore micros len 0 _).1,
    randPre_credits hashCore micros hA oB now len s h]

theorem randBody_credits_le (hA oB now len : Nat) (s : RNGState) (h : s.credits ≤ 384) :
    ((randBody hashCore micros hA oB now len s).1).credits ≤ 384 := by
  rw [randBody_credits hashCore micros hA oB now len s h]
  exact randCredits_le s.credits len h

theorem randBody_initialized (hA oB now len : Nat) (s : RNGState) :
    ((randBody hashCore micros hA oB now len s).1).initialized = s.initialized := by
  simp only [randBody]
  rw [rekey_initialized, (randLoop_spec hashCore micros len 0 _).2.2.1,
    randPre_initialized]

theorem randBody_block_lo (hA oB now len : Nat) (s : RNGState) (i : Fin 64)
    (hi : (i : Nat) < 16) :
    ((randBody hashCore micros hA oB now len s).1).block i = s.block i := by
  simp only [randBody]
  rw [rekey_block_lo hashCore micros _ i hi,
    (randLoop_spec hashCore micros len 0 _).2.2.2.2.2.2.2.2 i hi,
    randPre_block_lo hashCore micros hA oB now len s i hi]

theorem randBody_len (hA oB now len : Nat) (s : RNGState) :
    ((randBody hashCore micros hA oB now len s).2).length = len :=
  (randLoop_spec hashCore micros len 0 _).2.2.2.2.2.2.2.1

theorem rand_of_initialized (hA oB now : Nat) (eep : List Nat) (len : Nat) (s : RNGState)
    (h : s.initialized = true) :
    rand hashCore micros crc8 devId hA oB now eep len s =
      randBody hashCore micros hA oB now len s := by
  simp only [rand]
  rw [if_pos h]

theorem rand_of_uninitialized (hA oB now : Nat) (eep : List Nat) (len : Nat) (s : RNGState)
    (h : s.initialized = false) :
    rand hashCore micros crc8 devId hA oB now eep len s =
      randBody hashCore micros hA oB now len
        (begin hashCore micros crc8 devId none eep now s) := by
  simp only [rand]
  rw [if_neg (by rw [h]; simp)]

/-! ### Field effects of begin, loop, destroy, setAutoSaveTime -/

theorem begin_initialized (tag : Option (List Nat)) (eep : List Nat) (now : Nat)
    (s : RNGState) :
    (begin hashCore micros crc8 devId tag eep now s).initialized = true := by
  simp only [begin]
  split
  · assumption
  · rfl

theorem begin_credits_le (tag : Option (List Nat)) (eep : List Nat) (now : Nat)
    (s : RNGState) (h : s.credits ≤ 384) :
    (begin hashCore micros crc8 devId tag eep now s).credits ≤ 384 := by
  simp only [begin]
  split
  · exact h
  · show (save hashCore micros now _).credits ≤ 384
    rw [save_credits]
    exact stir_credits_le hashCore micros devId 0 now _

theorem begin_tagIntact (tag : Option (List Nat)) (eep : List Nat) (now : Nat)
    (s : RNGState) (h : s.initialized = false) (i : Fin 64) (hi : (i : Nat) < 16) :
    (begin hashCore micros crc8 devId tag eep now s).block i =
      tagRNGBytes.getD (i : Nat) 0 := by
  simp only [begin]
  rw [if_neg (by rw [h]; simp)]
  have hbase : ∀ s1 : RNGState,
      (if crc8 83 (eep.take 47) = eep.getD 47 0 then
          xorChunkAt16 (fun j : Fin 64 =>
            if (j : Nat) < 16 then tagRNGBytes.getD (j : Nat) 0
            else initRNGBytes.getD ((j : Nat) - 16) 0) (eep.take 48)
        else (fun j : Fin 64 =>
          if (j : Nat) < 16 then tagRNGBytes.getD (j : Nat) 0
          else initRNGBytes.getD ((j : Nat) - 16) 0)) i =
        tagRNGBytes.getD (i : Nat) 0 := by
    intro s1
    split
    · rw [xorChunkAt16_lo _ _ i hi]
      exact if_pos hi
    · exact if_pos hi
  rw [save_block_lo hashCore micros now _ i hi,
    stir_block_lo hashCore micros devId 0 now _ i hi]
  cases tag with
  | none =>
    rw [rekey_block_lo hashCore micros _ i hi]
    exact hbase s
  | some t =>
    rw [stir_block_lo hashCore micros t 0 now _ i hi,
      rekey_block_lo hashCore micros _ i hi]
    exact hbase s

theorem loop_credits_le (hA oB now : Nat) (s : RNGState) (h : s.credits ≤ 384) :
    (loop hashCore micros hA oB now s).credits ≤ 384 := by
  simp only [loop]
  by_cases hOB : 32 ≤ oB
  · by_cases hTP : 12 ≤ s.trngPosn + 1
    · simp only [hOB, hTP, ite_true, if_true]
      split <;> split <;>
        first
          | (rw [save_credits]; exact stir_credits_le hashCore micros [] 0 now _)
          | exact stir_credits_le hashCore micros [] 0 now _
    · simp only [hOB, hTP, ite_true, ite_false, if_true, if_false]
      split <;> split <;>
        first
          | (rw [save_credits]; show s.credits + 4 ≤ 384; omega)
          | (rw [save_credits])
          | (show s.credits + 4 ≤ 384; omega)
          | exact le_refl 384
  · simp only [hOB, ite_false, if_false]
    split
    · rw [save_credits]
      exact h
    · exact h

theorem loop_initialized (hA oB now : Nat) (s : RNGState) :
    (loop hashCore micros hA oB now s).initialized = s.initialized := by
  simp only [loop]
  by_cases hOB : 32 ≤ oB
  · by_cases hTP : 12 ≤ s.trngPosn + 1
    · simp only [hOB, hTP, ite_true, if_true]
      split <;> split <;>
        first
          | (rw [save_initialized, stir_initialized])
          | (rw [stir_initialized])
    · simp only [hOB, hTP, ite_true, ite_false, if_true, if_false]
      split <;> split <;>
        first
          | (rw [save_initialized])
          | rfl
  · simp only [hOB, ite_false, if_false]
    split
    · rw [save_initialized]
    · rfl

theorem loop_block_lo (hA oB now : Nat) (s : RNGState) (i : Fin 64)
    (hi : (i : Nat) < 16) :
    (loop hashCore micros hA oB now s).block i = s.block i := by
  simp only [loop]
  by_cases hOB : 32 ≤ oB
  · by_cases hTP : 12 ≤ s.trngPosn + 1
    · simp only [hOB, hTP, ite_true, if_true]
      split <;> split <;>
        first
          | (rw [save_block_lo hashCore micros now _ i hi,
              stir_block_lo hashCore micros [] 0 now _ i hi];
             exact xorWord32At_lo _ _ _ (by omega) i hi)
          | (rw [stir_block_lo hashCore micros [] 0 now _ i hi];
             exact xorWord32At_lo _ _ _ (by omega) i hi)
    · simp only [hOB, hTP, ite_true, ite_false, if_true, if_false]
      split <;> split <;>
        first
          | (rw [save_block_lo hashCore micros now _ i hi];
             exact xorWord32At_lo _ _ _ (by omega) i hi)
          | exact xorWord32At_lo _ _ _ (by omega) i hi
  · simp only [hOB, ite_false, if_false]
    split
    · rw [save_block_lo hashCore micros now _ i hi]
    · rfl

/-! ### Step and run lemmas -/

theorem rand_credits_le (hA oB now : Nat) (eep : List Nat) (len : Nat) (s : RNGState)
    (h : s.credits ≤ 384) :
    ((rand hashCore micros crc8 devId hA oB now eep len s).1).credits ≤ 384 := by
  simp only [rand]
  split
  · exact randBody_credits_le hashCore micros hA oB now len s h
  · exact randBody_credits_le hashCore micros hA oB now len _
      (begin_credits_le hashCore micros crc8 devId none eep now s h)

theorem step_credits_le (e : Ev) (s : RNGState) (h : s.credits ≤ 384) :
    (step hashCore micros crc8 devId e s).credits ≤ 384 := by
  cases e with
  | beginE tag eep now => exact begin_credits_le hashCore micros crc8 devId tag eep now s h
  | stirE data credit now => exact stir_credits_le hashCore micros data credit now s
  | randE hA oB now eep len => exact rand_credits_le hashCore micros crc8 devId hA oB now eep len s h
  | saveE now => rw [step, save_credits]; exact h
  | loopE hA oB now => exact loop_credits_le hashCore micros hA oB now s h
  | setTimeE m => exact h
  | destroyE => exact h

theorem run_credits_le : ∀ (evs : List Ev) (s : RNGState), s.credits ≤ 384 →
    (run hashCore micros crc8 devId evs s).credits ≤ 384 := by
  intro evs
  induction evs with
  | nil => intro s h; exact h
  | cons e evs ih =>
    intro s h
    exact ih _ (step_credits_le hashCore micros crc8 devId e s h)

/-! ### The constant 16-byte tag region -/

/-- The first 16 bytes of the block hold the `tagRNG` constant. -/
def tagIntact (s : RNGState) : Prop :=
  ∀ i : Fin 64, (i : Nat) < 16 → s.block i = tagRNGBytes.getD (i : Nat) 0

instance tagIntact.decidable (s : RNGState) : Decidable (tagIntact s) := by
  unfold tagIntact
  infer_instance

/-- The events dispatching the four operations named by the constant-region
claim: stir, rand, save and loop. -/
def evCore : Ev → Bool
  | .stirE _ _ _ => true
  | .randE _ _ _ _ _ => true
  | .saveE _ => true
  | .loopE _ _ _ => true
  | _ => false

theorem step_block_lo (e : Ev) (s : RNGState) (hcore : evCore e = true)
    (hinit : s.initialized = true) (i : Fin 64) (hi : (i : Nat) < 16) :
    (step hashCore micros crc8 devId e s).block i = s.block i := by
  cases e with
  | stirE data credit now => exact stir_block_lo hashCore micros data credit now s i hi
  | randE hA oB now eep len =>
    show ((rand hashCore micros crc8 devId hA oB now eep len s).1).block i = s.block i
    rw [rand_of_initialized hashCore micros crc8 devId hA oB now eep len s hinit]
    exact randBody_block_lo hashCore micros hA oB now len s i hi
  | saveE now => exact save_block_lo hashCore micros now s i hi
  | loopE hA oB now => exact loop_block_lo hashCore micros hA oB now s i hi
  | beginE tag eep now => simp [evCore] at hcore
  | setTimeE m => simp [evCore] at hcore
  | destroyE => simp [evCore] at hcore

theorem step_initialized_true (e : Ev) (s : RNGState) (hcore : evCore e = true)
    (hinit : s.initialized = true) :
    (step hashCore micros crc8 devId e s).initialized = true := by
  cases e with
  | stirE data credit now =>
    rw [show step hashCore micros crc8 devId (Ev.stirE data credit now) s =
      stir hashCore micros data credit now s from rfl, stir_initialized]
    exact hinit
  | randE hA oB now eep len =>
    show ((rand hashCore micros crc8 devId hA oB now eep len s).1).initialized = true
    rw [rand_of_initialized hashCore micros crc8 devId hA oB now eep len s hinit,
      randBody_initialized]
    exact hinit
  | saveE now =>
    rw [show step hashCore micros crc8 devId (Ev.saveE now) s =
      save hashCore micros now s from rfl, save_initialized]
    exact hinit
  | loopE hA oB now =>
    rw [show step hashCore micros crc8 devId (Ev.loopE hA oB now) s =
      loop hashCore micros hA oB now s from rfl, loop_initialized]
    exact hinit
  | beginE tag eep now => simp [evCore] at hcore
  | setTimeE m => simp [evCore] at hcore
  | destroyE => simp [evCore] at hcore

theorem run_tagIntact : ∀ (evs : List Ev) (s : RNGState),
    (∀ e ∈ evs, evCore e = true) → s.initialized = true → tagIntact s →
    tagIntact (run hashCore micros crc8 devId evs s) := by
  intro evs
  induction evs with
  | nil => intro s _ _ ht; exact ht
  | cons e evs ih =>
    intro s hall hinit ht
    have hce : evCore e = true := hall e (List.mem_cons_self e evs)
    refine ih _ (fun x hx => hall x (List.mem_cons_of_mem e hx))
      (step_initialized_true hashCore micros crc8 devId e s hce hinit) ?_
    intro i hi
    rw [step_block_lo hashCore micros crc8 devId e s hce hinit i hi]
    exact ht i hi

/-! ### The rekey/block schedule of rand -/

/-- Events of the schedule of the generation loop of `RNGClass::rand`:
producing one keystream block, or performing a full rekey. -/
inductive TrEv where
  | blk
  | rek

/-- Number of rekeys in a schedule. -/
def countRek : List TrEv → Nat
  | [] => 0
  | TrEv.rek :: tr => countRek tr + 1
  | TrEv.blk :: tr => countRek tr

/-- Number of generated keystream blocks in a schedule. -/
def countBlk : List TrEv → Nat
  | [] => 0
  | TrEv.rek :: tr => countBlk tr
  | TrEv.blk :: tr => countBlk tr + 1

/-- Starting from `k` blocks generated since the last rekey, no run of
consecutive block generations between two rekeys ever exceeds 16. -/
def runsBounded : Nat → List TrEv → Bool
  | _, [] => true
  | k, TrEv.blk :: tr => decide (k + 1 ≤ 16) && runsBounded (k + 1) tr
  | _, TrEv.rek :: tr => runsBounded 0 tr

/-- The rekey/block schedule of the generation loop of rand; the control
flow of `randLoop` depends only on the counter and the byte count, so the
schedule is a pure function of both. -/
def randLoopTrace (cnt len : Nat) : List TrEv :=
  if h : len = 0 then []
  else if 16 ≤ cnt then
    TrEv.rek :: TrEv.blk :: randLoopTrace 1 (if len < 64 then 0 else len - 64)
  else TrEv.blk :: randLoopTrace (cnt + 1) (if len < 64 then 0 else len - 64)
termination_by len
decreasing_by
  · split <;> omega
  · split <;> omega

/-- The schedule of one whole `rand` body: the generation loop followed by
the unconditional final rekey. -/
def randTrace (len : Nat) : List TrEv :=
  randLoopTrace 0 len ++ [TrEv.rek]

theorem randLoopTrace_runsBounded : ∀ len cnt, cnt ≤ 16 →
    runsBounded cnt (randLoopTrace cnt len) = true := by
  intro len
  induction len using Nat.strong_induction_on with
  | _ len ih =>
    intro cnt hcnt
    rw [randLoopTrace]
    by_cases h0 : len = 0
    · rw [dif_pos h0]
      rfl
    · rw [dif_neg h0]
      by_cases hc : 16 ≤ cnt
      · rw [if_pos hc]
        show runsBounded 0 (TrEv.blk :: _) = true
        show (decide (0 + 1 ≤ 16) && _) = true
        rw [Bool.and_eq_true]
        exact ⟨by decide, by split <;> exact ih _ (by omega) 1 (by omega)⟩
      · rw [if_neg hc]
        show (decide (cnt + 1 ≤ 16) && _) = true
        rw [Bool.and_eq_true]
        refine ⟨by simp; omega, ?_⟩
        split <;> exact ih _ (by omega) (cnt + 1) (by omega)

theorem runsBounded_concat_rek : ∀ (tr : List TrEv) (k : Nat),
    runsBounded k tr = true → runsBounded k (tr ++ [TrEv.rek]) = true := by
  intro tr
  induction tr with
  | nil => intro k _; rfl
  | cons e tr ih =>
    intro k h
    cases e with
    | blk =>
      rw [List.cons_append]
      show (decide (k + 1 ≤ 16) && _) = true
      have h' : (decide (k + 1 ≤ 16) && runsBounded (k + 1) tr) = true := h
      rw [Bool.and_eq_true] at h'
      rw [Bool.and_eq_true]
      exact ⟨h'.1, ih (k + 1) h'.2⟩
    | rek =>
      rw [List.cons_append]
      show runsBounded 0 (tr ++ [TrEv.rek]) = true
      exact ih 0 h

theorem randLoop_ticks : ∀ len cnt (s : RNGState),
    ((randLoop hashCore micros cnt len s).1).ticks =
      s.ticks + countRek (randLoopTrace cnt len) := by
  intro len
  induction len using Nat.strong_induction_on with
  | _ len ih =>
    intro cnt s
    rw [randLoop, randLoopTrace]
    by_cases h0 : len = 0
    · rw [dif_pos h0, dif_pos h0]
      rfl
    · rw [dif_neg h0, dif_neg h0]
      by_cases hc : 16 ≤ cnt <;> by_cases h64 : len < 64
      · simp only [hc, h64, ite_true, if_true]
        show (rekey hashCore micros s).ticks = _
        rw [rekey_ticks]
        show s.ticks + 1 = s.ticks + countRek (TrEv.rek :: TrEv.blk :: randLoopTrace 1 0)
        rw [show randLoopTrace 1 0 = [] from by rw [randLoopTrace]; rfl]
        rfl
      · simp only [hc, h64, ite_true, ite_false, if_true, if_false]
        rw [ih (len - 64) (by omega) 1 _]
        show (rekey hashCore micros s).ticks + _ = _
        rw [rekey_ticks]
        show s.ticks + 1 + countRek (randLoopTrace 1 (len - 64)) =
          s.ticks + countRek (TrEv.rek :: TrEv.blk :: randLoopTrace 1 (len - 64))
        show s.ticks + 1 + countRek (randLoopTrace 1 (len - 64)) =
          s.ticks + (countRek (randLoopTrace 1 (len - 64)) + 1)
        omega
      · simp only [hc, h64, ite_true, ite_false, if_true, if_false]
        show s.ticks = _
        rw [show randLoopTrace (cnt + 1) 0 = [] from by rw [randLoopTrace]; rfl]
        rfl
      · simp only [hc, h64, ite_true, ite_false, if_true, if_false]
        rw [ih (len - 64) (by omega) (cnt + 1) _]
        rfl

theorem randLoopTrace_countBlk : ∀ len cnt,
    countBlk (randLoopTrace cnt len) = (len + 63) / 64 := by
  intro len
  induction len using Nat.strong_induction_on with
  | _ len ih =>
    intro cnt
    rw [randLoopTrace]
    by_cases h0 : len = 0
    · rw [dif_pos h0, h0]
      rfl
    · rw [dif_neg h0]
      by_cases hc : 16 ≤ cnt <;> by_cases h64 : len < 64 <;>
        simp only [hc, h64, ite_true, ite_false, if_true, if_false]
      · show countBlk (randLoopTrace 1 0) + 1 = _
        rw [ih 0 (by omega) 1]
        omega
      · show countBlk (randLoopTrace 1 (len - 64)) + 1 = _
        rw [ih (len - 64) (by omega) 1]
        omega
      · show countBlk (randLoopTrace (cnt + 1) 0) + 1 = _
        rw [ih 0 (by omega) (cnt + 1)]
        omega
      · show countBlk (randLoopTrace (cnt + 1) (len - 64)) + 1 = _
        rw [ih (len - 64) (by omega) (cnt + 1)]
        omega

/-! ### The chunk decomposition used by stir -/

/-- The decomposition of a byte string into the successive chunks of at most
48 bytes consumed by the chunk loop of `RNGClass::stir`. -/
def chunks48 (data : List Nat) : List (List Nat) :=
  if h : data = [] then []
  else data.take 48 :: chunks48 (data.drop 48)
termination_by data.length
decreasing_by
  simp only [List.length_drop]
  have : data.length ≠ 0 := fun hh => h (List.length_eq_zero.mp hh)
  omega

theorem chunks48_len : ∀ n data, data.length ≤ n →
    (chunks48 data).length = (data.length + 47) / 48 := by
  intro n
  induction n with
  | zero =>
    intro data h
    have hd : data = [] := List.length_eq_zero.mp (Nat.le_zero.mp h)
    subst hd
    rw [chunks48]
    rfl
  | succ n ih =>
    intro data h
    rw [chunks48]
    split
    · rename_i hd
      subst hd
      rfl
    · rename_i hne
      have hlen : data.length ≠ 0 := fun hh => hne (List.length_eq_zero.mp hh)
      rw [List.length_cons, ih (data.drop 48) (by simp only [List.length_drop]; omega)]
      simp only [List.length_drop]
      omega

theorem chunks48_mem : ∀ n data ch, data.length ≤ n → ch ∈ chunks48 data →
    ch.length ≤ 48 ∧ ch ≠ [] := by
  intro n
  induction n with
  | zero =>
    intro data ch h hm
    have hd : data = [] := List.length_eq_zero.mp (Nat.le_zero.mp h)
    subst hd
    rw [chunks48] at hm
    simp at hm
  | succ n ih =>
    intro data ch h hm
    rw [chunks48] at hm
    split at hm
    · simp at hm
    · rename_i hne
      have hlen : data.length ≠ 0 := fun hh => hne (List.length_eq_zero.mp hh)
      rcases List.mem_cons.mp hm with hm | hm
      · subst hm
        have hl : (List.take 48 data).length ≠ 0 := by
          simp only [List.length_take]
          omega
        refine ⟨by simp only [List.length_take]; omega, ?_⟩
        intro hnil
        exact hl (by rw [hnil]; rfl)
      · exact ih (data.drop 48) ch (by simp only [List.length_drop]; omega) hm

theorem chunks48_flatten : ∀ n data, data.length ≤ n → (chunks48 data).flatten = data := by
  intro n
  induction n with
  | zero =>
    intro data h
    have hd : data = [] := List.length_eq_zero.mp (Nat.le_zero.mp h)
    subst hd
    rw [chunks48]
    rfl
  | succ n ih =>
    intro data h
    rw [chunks48]
    split
    · rename_i hd
      subst hd
      rfl
    · rename_i hne
      have hlen : data.length ≠ 0 := fun hh => hne (List.length_eq_zero.mp hh)
      rw [List.flatten_cons, ih (data.drop 48) (by simp only [List.length_drop]; omega)]
      exact List.take_append_drop 48 data

theorem stirChunks_foldl : ∀ n data (s : RNGState), data.length ≤ n →
    stirChunks hashCore micros data s =
      List.foldl
        (fun st ch => rekey hashCore micros { st with block := xorChunkAt16 st.block ch })
        s (chunks48 data) := by
  intro n
  induction n with
  | zero =>
    intro data s h
    have hd : data = [] := List.length_eq_zero.mp (Nat.le_zero.mp h)
    subst hd
    rw [stirChunks, chunks48]
    rfl
  | succ n ih =>
    intro data s h
    rw [stirChunks, chunks48]
    split
    · rfl
    · rename_i hne
      have hlen : data.length ≠ 0 := fun hh => hne (List.length_eq_zero.mp hh)
      rw [List.foldl_cons,
        ih (data.drop 48) _ (by simp only [List.length_drop]; omega)]

/-! ### Concrete instantiations of the external collaborators, used to
evaluate the engine on explicit inputs -/

/-- A trivial permutation instance (any function of the right type will do
for evaluating the state machinery). -/
def cHash : (Fin 64 → Nat) → Fin 64 → Nat := fun _ _ => 0

/-- A constant `micros()` sample stream. -/
def cMu : Nat → Nat := fun _ => 0

/-- A trivial checksum instance. -/
def cCrc : Nat → List Nat → Nat := fun _ _ => 0

/-- A concrete device identifier string. -/
def cDev : List Nat := []

/-- An initialized engine whose pool credit is saturated at 384. -/
def exSt : RNGState :=
  { initState with credits := 384, initialized := true }

/-! ### The claims -/

/-- Claim C1, counterexample: the clamp in `RNGClass::stir` is guarded by
`&& len`, so a zero-length stir call adds its full credit argument: on the
fresh engine, `stir(0, 0, 8)` raises the credit counter to 8 while
`stir(0, 0, 0*8)` leaves it at 0.  The two calls therefore do not leave the
engine in the same state, and a stir supplying zero bytes can increase the
entropy-credit counter. -/
theorem stir_zero_len_credit_cex :
    8 > ([] : List Nat).length * 8 ∧
    (stir cHash cMu [] 8 0 initState).credits = 8 ∧
    (stir cHash cMu [] (([] : List Nat).length * 8) 0 initState).credits = 0 := by
  refine ⟨by decide, ?_, ?_⟩ <;> decide

/-- Claim C1, amended: for every nonempty data and every credit
exceeding `len * 8`, `stir(data, len, credit)` leaves the engine in exactly
the same state as `stir(data, len, len * 8)`; for `len = 0` the credit is
not clamped, and the full credit argument is added to the counter,
saturating at 384. -/
theorem stir_credit_clamp :
    (∀ (data : List Nat) (credit now : Nat) (s : RNGState), data ≠ [] →
      data.length * 8 < credit →
      stir hashCore micros data credit now s =
        stir hashCore micros data (data.length * 8) now s) ∧
    (∀ (credit now : Nat) (s : RNGState),
      (stir hashCore micros [] credit now s).credits =
        if 384 - s.credits > credit then s.credits + credit else 384) := by
  constructor
  · intro data credit now s hne hlt
    have hlen0 : data.length ≠ 0 := fun h0 => hne (List.length_eq_zero.mp h0)
    have hcl : stirCredits s.credits data.length credit =
        stirCredits s.credits data.length (data.length * 8) := by
      simp only [stirCredits]
      rw [ite_self,
        if_pos (⟨by omega, hlen0⟩ : credit / 8 ≥ data.length ∧ data.length ≠ 0)]
    simp only [stir]
    rw [hcl]
  · intro credit now s
    rw [stir_credits]
    simp only [stirCredits, List.length_nil]
    rw [if_neg ((by simp) : ¬(credit / 8 ≥ 0 ∧ (0 : Nat) ≠ 0))]

/-- Witness for the amended C1 at data `[1]`, credit 9. -/
theorem stir_credit_clamp_witness :
    ([1] : List Nat) ≠ [] ∧ ([1] : List Nat).length * 8 < 9 ∧
      stir cHash cMu [1] 9 0 initState =
        stir cHash cMu [1] (([1] : List Nat).length * 8) 0 initState :=
  ⟨by decide, by decide,
    (stir_credit_clamp cHash cMu).1 [1] 9 0 initState (by decide) (by decide)⟩

/-- Claim C2: starting from the constructed engine (credit 0), every
sequence of engine events (begin, stir, rand, save, loop, and also
setAutoSaveTime and destroy) keeps the entropy-credit counter at most
`MAX_CREDITS = 384`; the counter is a natural number in the model, so it
can never go negative. -/
theorem credits_range_invariant (evs : List Ev) :
    (run hashCore micros crc8 devId evs initState).credits ≤ 384 :=
  run_credits_le hashCore micros crc8 devId evs initState (Nat.zero_le 384)

/-- Claim C3, counterexample: the credit guard in `RNGClass::rand` compares
`(uint16_t)len`, so a request of 65536 bytes (possible where `size_t` is
wider than 16 bits) truncates to 0 in the comparison and subtracts
`65536 * 8 ≡ 0 (mod 2^16)`: on a saturated initialized engine the credit
counter stays at 384 instead of dropping to 0 as the claim requires for
`len * 8 > credit`. -/
theorem rand_credit_trunc_cex :
    exSt.credits = 384 ∧ 384 < 65536 * 8 ∧
    ((rand cHash cMu cCrc cDev 0 0 0 [] 65536 exSt).1).credits = 384 := by
  refine ⟨rfl, by norm_num, ?_⟩
  rw [rand_of_initialized cHash cMu cCrc cDev 0 0 0 [] 65536 exSt rfl,
    randBody_credits cHash cMu 0 0 0 65536 exSt (by decide)]
  decide

/-- Claim C3, amended: on an initialized engine, for every `len < 2^16`
(every representable request on the 16-bit AVR target), `rand(buf, len)`
sets the credit counter to `credit - len * 8` when `len * 8 ≤ credit` and
to 0 otherwise; for larger `len` the comparison truncates `len` to 16 bits
and the subtraction is mod `2^16`.  In all cases the call returns exactly
`len` bytes of output. -/
theorem rand_credit_accounting :
    (∀ (hA oB now : Nat) (eep : List Nat) (len : Nat) (s : RNGState),
      s.initialized = true → s.credits ≤ 384 → len < 65536 →
      ((rand hashCore micros crc8 devId hA oB now eep len s).1).credits =
        if len * 8 ≤ s.credits then s.credits - len * 8 else 0) ∧
    (∀ (hA oB now : Nat) (eep : List Nat) (len : Nat) (s : RNGState),
      ((rand hashCore micros crc8 devId hA oB now eep len s).2).length = len) := by
  constructor
  · intro hA oB now eep len s hinit hcr hlen
    rw [rand_of_initialized hashCore micros crc8 devId hA oB now eep len s hinit,
      randBody_credits hashCore micros hA oB now len s hcr,
      randCredits_eq s.credits len hcr, Nat.mod_eq_of_lt hlen]
    by_cases h : len * 8 ≤ s.credits
    · rw [if_pos h, if_neg (by omega)]
    · rw [if_neg h, if_pos (by omega)]
  · intro hA oB now eep len s
    simp only [rand]
    split
    · exact randBody_len hashCore micros hA oB now len s
    · exact randBody_len hashCore micros hA oB now len _

/-- Witness for the amended C3 at a 4-byte request on a saturated
initialized engine. -/
theorem rand_credit_accounting_witness :
    exSt.initialized = true ∧ exSt.credits ≤ 384 ∧ (4 : Nat) < 65536 ∧
      ((rand cHash cMu cCrc cDev 0 0 0 [] 4 exSt).1).credits =
        if 4 * 8 ≤ exSt.credits then exSt.credits - 4 * 8 else 0 :=
  ⟨rfl, by decide, by decide,
    (rand_credit_accounting cHash cMu cCrc cDev).1 0 0 0 [] 4 exSt rfl
      (by decide) (by decide)⟩

/-- Claim C4: within a single `rand` call, the schedule of the generation
loop never produces more than 16 keystream blocks between two full rekeys
(`runsBounded`), the whole schedule of the body always ends with the
unconditional final rekey (also for `len = 0`), the rekey count of the
schedule matches the `micros()`-sample count consumed by the generation
loop of the state function, the loop generates `ceil(len / 64)` blocks,
and the body performs exactly one rekey after the loop. -/
theorem rand_rekey_discipline :
    (∀ len : Nat, runsBounded 0 (randTrace len) = true) ∧
    (∀ len : Nat, (randTrace len).getLast? = some TrEv.rek) ∧
    (∀ (len cnt : Nat) (s : RNGState),
      ((randLoop hashCore micros cnt len s).1).ticks =
        s.ticks + countRek (randLoopTrace cnt len)) ∧
    (∀ (len cnt : Nat), countBlk (randLoopTrace cnt len) = (len + 63) / 64) ∧
    (∀ (hA oB now len : Nat) (s : RNGState),
      ((randBody hashCore micros hA oB now len s).1).ticks =
        ((randLoop hashCore micros 0 len
          (randPre hashCore micros hA oB now len s)).1).ticks + 1) := by
  refine ⟨?_, ?_, randLoop_ticks hashCore micros,
    fun len cnt => randLoopTrace_countBlk len cnt, ?_⟩
  · intro len
    exact runsBounded_concat_rek _ 0 (randLoopTrace_runsBounded len 0 (by omega))
  · intro len
    rw [randTrace, List.getLast?_concat]
  · intro hA oB now len s
    rfl

/-- Claim C5, counterexample: a zero-length stir call on an engine whose
`firstSave` flag is still set and whose credit is saturated triggers the
one-time automatic save, which performs a second rekey; two `micros()`
samples are consumed instead of the exactly one the claim requires for
`len = 0`. -/
theorem stir_autosave_extra_rekey_cex :
    exSt.firstSave = true ∧ exSt.ticks = 0 ∧
    (stir cHash cMu [] 0 0 exSt).ticks = 2 := by
  refine ⟨rfl, rfl, ?_⟩
  decide

/-- Claim C5, amended: when a stir call does not trigger the one-time
automatic save (`firstSave` with the credit reaching 384, which performs
one additional rekey inside the triggered save), the call on empty data
performs exactly one rekey after the credit update and nothing else, and
on nonempty data processes the input in order as the chunks of at most 48
bytes of `chunks48`, XORing each chunk onto bytes 16..63 of the block and
rekeying once per chunk, for `ceil(len / 48)` rekeys in total. -/
theorem stir_chunk_protocol :
    (∀ (data : List Nat) (credit now : Nat) (s : RNGState),
      ¬(s.firstSave = true ∧ 384 ≤ stirCredits s.credits data.length credit) →
      stir hashCore micros data credit now s =
        if 0 < data.length then
          List.foldl (fun st ch =>
              rekey hashCore micros { st with block := xorChunkAt16 st.block ch })
            { s with credits := stirCredits s.credits data.length credit }
            (chunks48 data)
        else
          rekey hashCore micros
            { s with credits := stirCredits s.credits data.length credit }) ∧
    (∀ (data : List Nat) (credit now : Nat) (s : RNGState),
      ¬(s.firstSave = true ∧ 384 ≤ stirCredits s.credits data.length credit) →
      (stir hashCore micros data credit now s).ticks =
        s.ticks + (if data.length = 0 then 1 else (data.length + 47) / 48)) ∧
    (∀ data : List Nat, (chunks48 data).length = (data.length + 47) / 48) ∧
    (∀ (data ch : List Nat), ch ∈ chunks48 data → ch.length ≤ 48 ∧ ch ≠ []) ∧
    (∀ data : List Nat, (chunks48 data).flatten = data) := by
  have hfs : ∀ (data : List Nat) (credit : Nat) (s : RNGState),
      (if 0 < data.length then
        stirChunks hashCore micros data
          { s with credits := stirCredits s.credits data.length credit }
      else rekey hashCore micros
          { s with credits := stirCredits s.credits data.length credit }).firstSave =
        s.firstSave := by
    intro data credit s
    split
    · rw [stirChunks_firstSave]
    · rw [rekey_firstSave]
  have hcr : ∀ (data : List Nat) (credit : Nat) (s : RNGState),
      (if 0 < data.length then
        stirChunks hashCore micros data
          { s with credits := stirCredits s.credits data.length credit }
      else rekey hashCore micros
          { s with credits := stirCredits s.credits data.length credit }).credits =
        stirCredits s.credits data.length credit := by
    intro data credit s
    split
    · rw [stirChunks_credits]
    · rw [rekey_credits]
  refine ⟨?_, ?_, fun data => chunks48_len data.length data le_rfl,
    fun data ch hm => chunks48_mem data.length data ch le_rfl hm,
    fun data => chunks48_flatten data.length data le_rfl⟩
  · intro data credit now s h
    simp only [stir]
    rw [if_neg (by rw [hfs data credit s, hcr data credit s]; exact h)]
    split
    · exact stirChunks_foldl hashCore micros data.length data _ le_rfl
    · rfl
  · intro data credit now s h
    simp only [stir]
    rw [if_neg (by rw [hfs data credit s, hcr data credit s]; exact h)]
    split
    · rename_i hpos
      rw [stirChunks_ticks, if_neg (by omega)]
    · rename_i hpos
      rw [rekey_ticks, if_pos (by omega)]

/-- Witness for the amended C5 at a two-byte stir on the fresh engine. -/
theorem stir_chunk_protocol_witness :
    ¬(initState.firstSave = true ∧
        384 ≤ stirCredits initState.credits ([1, 2] : List Nat).length 0) ∧
    (stir cHash cMu [1, 2] 0 0 initState).ticks =
      initState.ticks + (if ([1, 2] : List Nat).length = 0 then 1
        else (([1, 2] : List Nat).length + 47) / 48) :=
  ⟨by decide, (stir_chunk_protocol cHash cMu).2.1 [1, 2] 0 0 initState (by decide)⟩

/-- Claim C6, counterexample: `RNGClass::stir` contains no initialization
check, so a stir call on the never-initialized engine operates directly on
the uninitialized state and does not invoke `begin` (which would have left
the engine initialized). -/
theorem stir_no_selfheal_cex :
    initState.initialized = false ∧
    (stir cHash cMu [1, 2, 3] 16 0 initState).initialized = false := by
  refine ⟨rfl, ?_⟩
  rw [stir_initialized]
  rfl

/-- Claim C6, amended: `rand` on a not-initialized engine first invokes
`begin` with no tag and then performs its normal work; `stir` performs no
initialization check at all and simply operates on the current state
(leaving the initialization flag untouched). -/
theorem rand_selfheal_stir_direct :
    (∀ (hA oB now : Nat) (eep : List Nat) (len : Nat) (s : RNGState),
      s.initialized = false →
      rand hashCore micros crc8 devId hA oB now eep len s =
        randBody hashCore micros hA oB now len
          (begin hashCore micros crc8 devId none eep now s)) ∧
    (∀ (data : List Nat) (credit now : Nat) (s : RNGState),
      (stir hashCore micros data credit now s).initialized = s.initialized) :=
  ⟨fun hA oB now eep len s h =>
      rand_of_uninitialized hashCore micros crc8 devId hA oB now eep len s h,
   fun data credit now s => stir_initialized hashCore micros data credit now s⟩

/-- Witness for the amended C6 on the fresh engine. -/
theorem rand_selfheal_stir_direct_witness :
    initState.initialized = false ∧
      rand cHash cMu cCrc cDev 0 0 0 [] 0 initState =
        randBody cHash cMu 0 0 0 0 (begin cHash cMu cCrc cDev none [] 0 initState) :=
  ⟨rfl, (rand_selfheal_stir_direct cHash cMu cCrc cDev).1 0 0 0 [] 0 initState rfl⟩

/-- Claim C7: `available(len)` is a pure function of the credit counter (it
is modelled as a function that takes the state and returns a Bool without
producing a new state, matching the `const` qualifier in the source); it
returns whether the credit is fully saturated when `len ≥ 384/8 = 48`
bytes, and otherwise whether `len * 8 ≤ credit` (equivalently
`len ≤ credit / 8`). -/
theorem available_formula (s : RNGState) (len : Nat) :
    (available s len = true) ↔
      (if 48 ≤ len then 384 ≤ s.credits else len * 8 ≤ s.credits) := by
  simp only [available]
  by_cases h48 : 48 ≤ len
  · rw [if_pos (show 384 / 8 ≤ len by omega), if_pos h48, decide_eq_true_eq]
  · rw [if_neg (show ¬(384 / 8 ≤ len) by omega), if_neg h48, decide_eq_true_eq]
    constructor <;> intro hx <;> omega

/-- Claim C9: `begin` on a not-initialized engine writes the 16-byte
`tagRNG` constant into the first 16 bytes of the block; every stir, rand,
save and loop step on an initialized engine leaves those 16 bytes
pointwise unchanged (all mutation touches byte offsets 16..63 only), so
the constant region survives every such event sequence; and `destroy`
zeroes the whole block. -/
theorem tag_region_constant :
    (∀ (tag : Option (List Nat)) (eep : List Nat) (now : Nat) (s : RNGState),
      s.initialized = false →
      ∀ i : Fin 64, (i : Nat) < 16 →
        (begin hashCore micros crc8 devId tag eep now s).block i =
          tagRNGBytes.getD (i : Nat) 0) ∧
    (∀ (e : Ev) (s : RNGState), evCore e = true → s.initialized = true →
      ∀ i : Fin 64, (i : Nat) < 16 →
        (step hashCore micros crc8 devId e s).block i = s.block i) ∧
    (∀ (s : RNGState) (i : Fin 64), (i : Nat) < 16 →
      (rekey hashCore micros s).block i = s.block i) ∧
    (∀ (evs : List Ev) (s : RNGState), (∀ e ∈ evs, evCore e = true) →
      s.initialized = true → tagIntact s →
      tagIntact (run hashCore micros crc8 devId evs s)) ∧
    (∀ (s : RNGState) (i : Fin 64), (destroy s).block i = 0) :=
  ⟨fun tag eep now s h i hi =>
      begin_tagIntact hashCore micros crc8 devId tag eep now s h i hi,
   fun e s hc hini i hlt => step_block_lo hashCore micros crc8 devId e s hc hini i hlt,
   fun s i hi => rekey_block_lo hashCore micros s i hi,
   run_tagIntact hashCore micros crc8 devId,
   fun _ _ => rfl⟩

/-- An initialized engine whose block already carries the tag constant. -/
def tagSt : RNGState :=
  { initState with
      initialized := true
      block := fun i => if (i : Nat) < 16 then tagRNGBytes.getD (i : Nat) 0 else 0 }

/-- Witness for C9: the tag region survives a concrete stir-then-save
event sequence. -/
theorem tag_region_constant_witness :
    (∀ e ∈ ([Ev.stirE [5] 8 0, Ev.saveE 3] : List Ev), evCore e = true) ∧
    tagSt.initialized = true ∧ tagIntact tagSt ∧
    tagIntact (run cHash cMu cCrc cDev [Ev.stirE [5] 8 0, Ev.saveE 3] tagSt) :=
  ⟨by decide, rfl, by decide,
    (tag_region_constant cHash cMu cCrc cDev).2.2.2.1 _ tagSt (by decide) rfl (by decide)⟩

/-- Claim C10: `setAutoSaveTime(minutes)` replaces a zero argument by one
minute, so the interval becomes 60000 ms for `minutes = 0` and exactly
`minutes * 60000` ms for every `minutes ≥ 1` (the product never overflows
the 32-bit arithmetic for a `uint16_t` argument); the resulting timeout is
never zero. -/
theorem setAutoSaveTime_formula :
    ∀ (minutes : Nat) (s : RNGState), minutes < 65536 →
      ((setAutoSaveTime minutes s).timeout =
        if minutes = 0 then 60000 else minutes * 60000) ∧
      (setAutoSaveTime minutes s).timeout ≠ 0 := by
  intro minutes s h
  simp only [setAutoSaveTime]
  rw [Nat.mod_eq_of_lt h]
  by_cases hm : minutes = 0
  · subst hm
    exact ⟨by norm_num, by norm_num⟩
  · rw [if_neg hm, if_neg hm]
    constructor
    · show minutes * 60000 % 4294967296 = minutes * 60000
      apply Nat.mod_eq_of_lt
      omega
    · show minutes * 60000 % 4294967296 ≠ 0
      rw [Nat.mod_eq_of_lt (by omega)]
      omega

/-- Witness for C10 at `minutes = 0`. -/
theorem setAutoSaveTime_formula_witness :
    (0 : Nat) < 65536 ∧
      (((setAutoSaveTime 0 initState).timeout =
        if (0 : Nat) = 0 then 60000 else 0 * 60000) ∧
      (setAutoSaveTime 0 initState).timeout ≠ 0) :=
  ⟨by decide, setAutoSaveTime_formula 0 initState (by decide)⟩
